import Mathlib

set_option maxRecDepth 8192

/-
Shallow embedding of the concordance package (src/concordance.go).

The repository holds two variants of the same Go package in one file,
separated by a document separator: variant 1 (lines 1-177) and
variant 2 (lines 178-340).  The two variants share WordCount, ScrubWord,
alphaChar, inRange, process and trimHist verbatim (variant 2 spells the
scrub function with a lowercase initial); they differ only in
TruncateTopWords.  We therefore embed the shared code once and give the
two truncation functions separately.

Go strings are byte sequences; we model them as List Nat (each element a
byte value).  Go int counters only ever increase here, so Nat is used.
Code that can panic (slice indexing out of range) is modelled with
Option: none is a panic.
-/

/-- A Go string, as its byte sequence. -/
abbrev Str := List Nat

/-- Go source: inRange(n, lo, hi uint8) bool, n >= lo && n <= hi. -/
def inRange (n lo hi : Nat) : Bool :=
  decide (lo ≤ n) && decide (n ≤ hi)

/-- Go source: alphaChar(r uint8) bool, inRange(r, 65, 90) || inRange(r, 97, 122). -/
def alphaChar (r : Nat) : Bool :=
  inRange r 65 90 || inRange r 97 122

/-- First loop of ScrubWord: scan indices upward from i over the suffix l of
the string, stopping at the first byte with alphaChar; returns the index or
none.  l is the suffix of the scanned string starting at index i. -/
def firstAlphaL : Str → Nat → Option Nat
  | [], _ => none
  | b :: rest, i => if alphaChar b then some i else firstAlphaL rest (i + 1)

/-- Shared shape of the second loop of ScrubWord and of the loop in trimHist:
walk the list with a running index i, replacing the accumulator by the index
whenever the predicate holds, and return the final accumulator. -/
def lastIdxLoop (p : Nat → Bool) : List Nat → Nat → Nat → Nat
  | [], _, acc => acc
  | b :: rest, i, acc => lastIdxLoop p rest (i + 1) (if p b then i else acc)

/-- Go source: ScrubWord (variant 1) and scrubWord (variant 2), identical
bodies.  The first loop finds minAlpha and breaks without advancing i, so the
second loop resumes at index minAlpha (hence the drop by mn below); it tracks
the last alphabetic index, which is at least mn because s[mn] is alphabetic.
The result is the slice s[minAlpha : maxAlpha+1]. -/
def scrubWord (s : Str) : Str :=
  match firstAlphaL s 0 with
  | none => []
  | some mn => (s.drop mn).take (lastIdxLoop alphaChar (s.drop mn) mn mn + 1 - mn)

/-- The ASCII branch of Go strings.ToLower: bytes 65..90 shift to 97..122,
all other bytes are unchanged. -/
def asciiToLower (b : Nat) : Nat :=
  if 65 ≤ b ∧ b ≤ 90 then b + 32 else b

/-- A UTF-8 continuation byte, 0x80..0xBF. -/
def isCont (b : Nat) : Bool :=
  decide (128 ≤ b) && decide (b ≤ 191)

/-- Allowed second byte of a three-byte UTF-8 sequence, given its lead byte. -/
def utf8SecondOkE (b0 b1 : Nat) : Bool :=
  if b0 = 224 then decide (160 ≤ b1) && decide (b1 ≤ 191)
  else if b0 = 237 then decide (128 ≤ b1) && decide (b1 ≤ 159)
  else isCont b1

/-- Allowed second byte of a four-byte UTF-8 sequence, given its lead byte. -/
def utf8SecondOkF (b0 b1 : Nat) : Bool :=
  if b0 = 240 then decide (144 ≤ b1) && decide (b1 ≤ 191)
  else if b0 = 244 then decide (128 ≤ b1) && decide (b1 ≤ 143)
  else isCont b1

/-- Decoding of the first rune of a byte string, as in Go
utf8.DecodeRuneInString: the code point of the leading UTF-8 sequence and the
remaining bytes.  Go replaces an invalid sequence by U+FFFD and carries on;
we leave invalid input unmodelled and return none there (no claim in this
development evaluates the decoder on invalid UTF-8). -/
def utf8DecodeOne : Str → Option (Nat × Str)
  | [] => none
  | b0 :: rest =>
    if b0 < 128 then some (b0, rest)
    else if decide (194 ≤ b0) && decide (b0 ≤ 223) then
      match rest with
      | b1 :: rest1 =>
        if isCont b1 then some ((b0 - 192) * 64 + (b1 - 128), rest1) else none
      | [] => none
    else if decide (224 ≤ b0) && decide (b0 ≤ 239) then
      match rest with
      | b1 :: b2 :: rest2 =>
        if utf8SecondOkE b0 b1 && isCont b2 then
          some ((b0 - 224) * 4096 + (b1 - 128) * 64 + (b2 - 128), rest2)
        else none
      | _ => none
    else if decide (240 ≤ b0) && decide (b0 ≤ 244) then
      match rest with
      | b1 :: b2 :: b3 :: rest3 =>
        if utf8SecondOkF b0 b1 && isCont b2 && isCont b3 then
          some ((b0 - 240) * 262144 + (b1 - 128) * 4096 + (b2 - 128) * 64 + (b3 - 128), rest3)
        else none
      | _ => none
    else none

/-- Decode a whole byte string rune by rune.  Each step consumes at least one
byte, so the byte count is enough fuel and the zero-fuel case is never
reached with the fuel utf8Decode supplies. -/
def utf8DecodeLoop : Nat → Str → Option (List Nat)
  | _, [] => some []
  | 0, _ :: _ => none
  | fuel + 1, b :: rest =>
    match utf8DecodeOne (b :: rest) with
    | some (r, t) => (utf8DecodeLoop fuel t).map fun rs => r :: rs
    | none => none

/-- UTF-8 decoding of a byte list into a code-point list, as performed rune
by rune inside Go strings.Map. -/
def utf8Decode (s : Str) : Option (List Nat) :=
  utf8DecodeLoop s.length s

/-- Partial model of Go unicode.ToLower (the simple case mapping used by
strings.ToLower): total on the ASCII range, and defined at the non-ASCII code
points this development evaluates; all remaining code points are left
unmodelled (none).  U+212A KELVIN SIGN lowers to the ASCII letter k. -/
def unicodeToLowerP (r : Nat) : Option Nat :=
  if r < 128 then some (asciiToLower r)
  else if r = 8490 then some 107
  else none

/-- Map unicodeToLowerP over a rune list, failing on unmodelled runes. -/
def mapLowerRunes : List Nat → Option (List Nat)
  | [] => some []
  | r :: rs =>
    match unicodeToLowerP r with
    | some r2 => (mapLowerRunes rs).map fun t => r2 :: t
    | none => none

/-- UTF-8 encoding of a single code point. -/
def utf8EncodeChar (r : Nat) : Str :=
  if r < 128 then [r]
  else if r < 2048 then [192 + r / 64, 128 + r % 64]
  else if r < 65536 then [224 + r / 4096, 128 + (r / 64) % 64, 128 + r % 64]
  else [240 + r / 262144, 128 + (r / 4096) % 64, 128 + (r / 64) % 64, 128 + r % 64]

/-- UTF-8 encoding of a code-point list. -/
def utf8Encode (rs : List Nat) : Str :=
  (rs.map utf8EncodeChar).flatten

/-- Go strings.ToLower on a byte string: decode the runes, lower each, and
re-encode.  Partial because unicodeToLowerP is a partial table; on all-ASCII
strings it is total and agrees byte for byte with mapping asciiToLower. -/
def goToLower (s : Str) : Option Str :=
  (utf8Decode s).bind fun rs => (mapLowerRunes rs).map utf8Encode

/-- A WordTuple of the Go source: the word and its count. -/
abbrev WordTuple := Str × Nat

/-- The Go map update m[word]++ on an association list with unique keys:
increment the entry of k if present, else insert (k, 1). -/
def bump : List WordTuple → Str → List WordTuple
  | [], k => [(k, 1)]
  | (k1, v) :: rest, k =>
    if k1 = k then (k1, v + 1) :: rest else (k1, v) :: bump rest k

/-- The Go map deletion delete(m, key): remove the entry of key (the first
matching entry; keys are unique in every map this development builds). -/
def eraseKey : List WordTuple → Str → List WordTuple
  | [], _ => []
  | (k1, v) :: rest, key =>
    if k1 = key then rest else (k1, v) :: eraseKey rest key

/-- The Go map read m[k] with its zero default. -/
def getVal : List WordTuple → Str → Nat
  | [], _ => 0
  | (k1, v) :: rest, k => if k1 = k then v else getVal rest k

/-- Sum of the values of the map. -/
def sumVals (m : List WordTuple) : Nat :=
  (m.map Prod.snd).sum

/-- The per-token branch of WordCount: scrub directly when caseSensitive,
otherwise lowercase first.  Go calls strings.ToLower here, which is
Unicode-aware; the fold is passed in as the parameter lower so that the
counting loop itself is embedded exactly (see goToLower for the fold model). -/
def wordOf (lower : Str → Str) (caseSensitive : Bool) (t : Str) : Str :=
  if caseSensitive then scrubWord t else scrubWord (lower t)

/-- The scanner loop of WordCount: for each token, m[word]++ and total++. -/
def wordCountLoop (lower : Str → Str) (caseSensitive : Bool) :
    List Str → List WordTuple → Nat → List WordTuple × Nat
  | [], m, total => (m, total)
  | t :: rest, m, total =>
      wordCountLoop lower caseSensitive rest (bump m (wordOf lower caseSensitive t)) (total + 1)

/-- Go source: WordCount (identical in both variants).  Runs the scanner loop
over the token list, then deletes the empty-string key. -/
def wordCount (lower : Str → Str) (caseSensitive : Bool) (tokens : List Str) :
    List WordTuple × Nat :=
  let r := wordCountLoop lower caseSensitive tokens [] 0
  (eraseKey r.1 [], r.2)

/-- Increment a list cell in place: the Go statement hist[i]++ (the bounds
check lives in histIncr). -/
def listIncr : List Nat → Nat → List Nat
  | [], _ => []
  | x :: xs, 0 => (x + 1) :: xs
  | x :: xs, i + 1 => x :: listIncr xs i

/-- The histogram update of process for one word length.  The source computes
newlen by repeated doubling (for newlen < wordlen { newlen *= 2 }) but never
uses it: the new slice is allocated with make([]int, 2*len(hist)), the old
values are copied forward, and then hist[wordlen]++ runs.  That final index
panics when wordlen is not below the allocated length; the panic is modelled
as none. -/
def histIncr (hist : List Nat) (wordlen : Nat) : Option (List Nat) :=
  if hist.length ≤ wordlen then
    let newHist := hist ++ List.replicate hist.length 0
    if wordlen < newHist.length then some (listIncr newHist wordlen) else none
  else
    some (listIncr hist wordlen)

/-- The single pass of process over the Counts entries: append each pair to
MostUsed and bump the length histogram at the word's length. -/
def processLoop : List WordTuple → List WordTuple → List Nat →
    Option (List WordTuple × List Nat)
  | [], mostUsed, hist => some (mostUsed, hist)
  | (k, v) :: rest, mostUsed, hist =>
    match histIncr hist k.length with
    | some h2 => processLoop rest (mostUsed ++ [(k, v)]) h2
    | none => none

/-- One insertion step of the descending-by-count sort.  Go runs
sort.Sort(sort.Reverse(ByCount(MostUsed))): an unstable sort whose outcome is
some permutation ordered by descending Count, with ties in unspecified order;
this insertion sort produces one such ordering. -/
def insertWT (a : WordTuple) : List WordTuple → List WordTuple
  | [] => [a]
  | b :: l => if b.2 < a.2 then a :: b :: l else b :: insertWT a l

/-- Sort WordTuples by descending count (model of
sort.Sort(sort.Reverse(ByCount ...))). -/
def sortWT : List WordTuple → List WordTuple
  | [] => []
  | a :: l => insertWT a (sortWT l)

/-- The loop of trimHist: the largest index whose value is positive, 0 when
there is none (for i, v := range hist { if v > 0 { max = i } }). -/
def trimIdx (hist : List Nat) : Nat :=
  lastIdxLoop (fun v => decide (0 < v)) hist 0 0

/-- Go source: trimHist, hist = hist[:max+1].  In every call site the
histogram is nonempty, so the take is the Go slice expression exactly. -/
def trimHist (hist : List Nat) : List Nat :=
  hist.take (trimIdx hist + 1)

/-- The Concordance struct of the Go source. -/
structure Concordance where
  counts : List WordTuple
  total : Nat
  unique : Nat
  mostUsed : List WordTuple
  lengthHistogram : List Nat
deriving DecidableEq

/-- NewConcordance up to and including process, before TruncateTopWords;
identical in both variants.  process starts from make([]int, 64), runs the
single pass, sorts MostUsed descending and trims the histogram. -/
def newConcordanceCore (lower : Str → Str) (tokens : List Str)
    (caseSensitive : Bool) : Option Concordance :=
  let wc := wordCount lower caseSensitive tokens
  match processLoop wc.1 [] (List.replicate 64 0) with
  | none => none
  | some (mu, hist) =>
    some ⟨wc.1, wc.2, wc.1.length, sortWT mu, trimHist hist⟩

/-- Variant 1 TruncateTopWords: if n > 0 && len(MostUsed) > n, keep the first
n entries, otherwise leave MostUsed alone.  n is a Go int and may be
negative. -/
def truncateTopWords1 (mostUsed : List WordTuple) (n : Int) : List WordTuple :=
  if 0 < n ∧ n < (mostUsed.length : Int) then mostUsed.take n.toNat else mostUsed

/-- Variant 2 TruncateTopWords: MostUsed = MostUsed[:n], unconditionally.  At
its call site in NewConcordance the slice has length equal to its capacity
(made with capacity Unique and filled by exactly Unique appends), so the Go
expression succeeds exactly when 0 <= n <= len(MostUsed) and panics
otherwise; the panic is modelled as none. -/
def truncateTopWords2 (mostUsed : List WordTuple) (n : Int) : Option (List WordTuple) :=
  if 0 ≤ n ∧ n ≤ (mostUsed.length : Int) then some (mostUsed.take n.toNat) else none

/-- Variant 1 NewConcordance. -/
def newConcordance1 (lower : Str → Str) (tokens : List Str)
    (caseSensitive : Bool) (topWords : Int) : Option Concordance :=
  (newConcordanceCore lower tokens caseSensitive).map fun c =>
    { c with mostUsed := truncateTopWords1 c.mostUsed topWords }

/-- Variant 2 NewConcordance. -/
def newConcordance2 (lower : Str → Str) (tokens : List Str)
    (caseSensitive : Bool) (topWords : Int) : Option Concordance :=
  (newConcordanceCore lower tokens caseSensitive).bind fun c =>
    (truncateTopWords2 c.mostUsed topWords).map fun mu => { c with mostUsed := mu }

/-- Spec-side: number of entries of the map whose word has length i. -/
def countLen (m : List WordTuple) (i : Nat) : Nat :=
  m.countP fun p => decide (p.1.length = i)

/-- Spec-side: number of tokens whose word scrubs to empty. -/
def countEmptyTokens (lower : Str → Str) (caseSensitive : Bool) (tokens : List Str) : Nat :=
  tokens.countP fun t => decide (wordOf lower caseSensitive t = [])

/-- Spec-side: index of the first element satisfying p. -/
def firstIdx (p : Nat → Bool) : List Nat → Option Nat
  | [] => none
  | b :: rest => if p b then some 0 else (firstIdx p rest).map (· + 1)

/-- Spec-side: index of the last element satisfying p. -/
def lastIdx (p : Nat → Bool) : List Nat → Option Nat
  | [] => none
  | b :: rest =>
    match lastIdx p rest with
    | some j => some (j + 1)
    | none => if p b then some 0 else none

theorem firstAlphaL_eq : ∀ (l : Str) (i : Nat),
    firstAlphaL l i = (firstIdx alphaChar l).map (i + ·)
  | [], _ => rfl
  | b :: rest, i => by
    simp only [firstAlphaL, firstIdx]
    by_cases h : alphaChar b
    · simp [h]
    · rw [if_neg h, if_neg h, firstAlphaL_eq rest (i + 1)]
      cases firstIdx alphaChar rest with
      | none => simp
      | some m =>
        have him : i + 1 + m = i + (m + 1) := by omega
        simp [him]

theorem lastIdxLoop_eq (p : Nat → Bool) : ∀ (l : List Nat) (i acc : Nat),
    lastIdxLoop p l i acc = match lastIdx p l with | some j => i + j | none => acc
  | [], _, _ => rfl
  | b :: rest, i, acc => by
    simp only [lastIdxLoop, lastIdx]
    rw [lastIdxLoop_eq p rest (i + 1)]
    cases hr : lastIdx p rest with
    | none => by_cases h : p b <;> simp [h]
    | some j =>
      have hij : i + 1 + j = i + (j + 1) := by omega
      simp [hij]

theorem firstIdx_none (p : Nat → Bool) :
    ∀ l : List Nat, firstIdx p l = none ↔ ∀ b ∈ l, p b = false
  | [] => by simp [firstIdx]
  | b :: rest => by
    simp only [firstIdx]
    by_cases h : p b
    · simp [h]
    · simp [h, firstIdx_none p rest, Option.map_eq_none']

theorem firstIdx_some_spec (p : Nat → Bool) :
    ∀ (l : List Nat) (m : Nat), firstIdx p l = some m →
      m < l.length ∧ p (l.getD m 0) = true ∧ ∀ k, k < m → p (l.getD k 0) = false
  | [], m => by simp [firstIdx]
  | b :: rest, m => by
    simp only [firstIdx]
    by_cases h : p b
    · simp only [if_pos h]
      intro hm
      obtain rfl : m = 0 := by simpa using hm.symm
      simpa using h
    · simp only [if_neg h, Option.map_eq_some']
      rintro ⟨m', hm', rfl⟩
      obtain ⟨h1, h2, h3⟩ := firstIdx_some_spec p rest m' hm'
      refine ⟨by simpa using h1, by simpa using h2, ?_⟩
      intro k hk
      cases k with
      | zero => simpa using h
      | succ k' => simpa using h3 k' (by omega)

theorem firstIdx_some_of (p : Nat → Bool) :
    ∀ (l : List Nat) (m : Nat), m < l.length → p (l.getD m 0) = true →
      (∀ k, k < m → p (l.getD k 0) = false) → firstIdx p l = some m
  | [], m => by simp
  | b :: rest, m => by
    intro hm hp hmin
    cases m with
    | zero =>
      simp only [List.getD_cons_zero] at hp
      simp [firstIdx, hp]
    | succ m' =>
      have hb : p b = false := by simpa using hmin 0 (by omega)
      have := firstIdx_some_of p rest m' (by simpa using hm) (by simpa using hp)
        (fun k hk => by simpa using hmin (k + 1) (by omega))
      simp [firstIdx, hb, this]

theorem lastIdx_none (p : Nat → Bool) :
    ∀ l : List Nat, lastIdx p l = none ↔ ∀ b ∈ l, p b = false
  | [] => by simp [lastIdx]
  | b :: rest => by
    have ih := lastIdx_none p rest
    simp only [lastIdx]
    cases hr : lastIdx p rest with
    | none =>
      have hall : ∀ x ∈ rest, p x = false := ih.1 hr
      by_cases h : p b
      · simp only [if_pos h]
        constructor
        · intro hc; exact absurd hc (by simp)
        · intro hc; exact absurd (hc b (by simp)) (by simp [h])
      · simp only [if_neg h]
        constructor
        · intro _ x hx
          rcases List.mem_cons.mp hx with rfl | hx'
          · simpa using h
          · exact hall x hx'
        · intro _; trivial
    | some j =>
      constructor
      · intro hc; exact Option.noConfusion hc
      · intro hc
        have hn : lastIdx p rest = none :=
          ih.2 fun x hx => hc x (List.mem_cons_of_mem b hx)
        rw [hr] at hn; exact Option.noConfusion hn

theorem getD_mem_of_lt (l : List Nat) (k d : Nat) (h : k < l.length) :
    l.getD k d ∈ l := by
  rw [List.getD_eq_getElem l d h]
  exact l.getElem_mem h

theorem lastIdx_some_spec (p : Nat → Bool) :
    ∀ (l : List Nat) (j : Nat), lastIdx p l = some j →
      j < l.length ∧ p (l.getD j 0) = true ∧
        ∀ k, j < k → k < l.length → p (l.getD k 0) = false
  | [], j => by simp [lastIdx]
  | b :: rest, j => by
    simp only [lastIdx]
    cases hr : lastIdx p rest with
    | none =>
      by_cases h : p b
      · simp only [if_pos h]
        intro hj
        obtain rfl : j = 0 := by simpa using hj.symm
        have hall := (lastIdx_none p rest).1 hr
        refine ⟨by simp, by simpa using h, ?_⟩
        intro k hk hklen
        cases k with
        | zero => omega
        | succ k' =>
          simp only [List.getD_cons_succ]
          exact hall _ (getD_mem_of_lt rest k' 0 (by simpa using hklen))
      · simp [h]
    | some j' =>
      intro hj
      obtain rfl : j = j' + 1 := by simpa using hj.symm
      obtain ⟨h1, h2, h3⟩ := lastIdx_some_spec p rest j' hr
      refine ⟨by simpa using h1, by simpa using h2, ?_⟩
      intro k hk hklen
      cases k with
      | zero => omega
      | succ k' => simpa using h3 k' (by omega) (by simpa using hklen)

theorem lastIdx_some_of (p : Nat → Bool) :
    ∀ (l : List Nat) (j : Nat), j < l.length → p (l.getD j 0) = true →
      (∀ k, j < k → k < l.length → p (l.getD k 0) = false) → lastIdx p l = some j
  | [], j => by simp
  | b :: rest, j => by
    intro hj hp hmax
    cases j with
    | zero =>
      have hrest : ∀ x ∈ rest, p x = false := by
        intro x hx
        obtain ⟨k, hk, rfl⟩ := List.mem_iff_getElem.mp hx
        have h2 := hmax (k + 1) (by omega) (by simpa using hk)
        rw [List.getD_cons_succ, List.getD_eq_getElem rest 0 hk] at h2
        exact h2
      have hr : lastIdx p rest = none := (lastIdx_none p rest).2 hrest
      simp only [lastIdx, hr]
      simp only [List.getD_cons_zero] at hp
      simp [hp]
    | succ j' =>
      have hr : lastIdx p rest = some j' :=
        lastIdx_some_of p rest j' (by simpa using hj) (by simpa using hp)
          (fun k hk hklen => by simpa using hmax (k + 1) (by omega) (by simpa using hklen))
      simp [lastIdx, hr]

theorem lastIdx_ge (p : Nat → Bool) (l : List Nat) (m : Nat)
    (hm : m < l.length) (hp : p (l.getD m 0) = true) :
    ∃ j, lastIdx p l = some j ∧ m ≤ j ∧ j < l.length := by
  cases hr : lastIdx p l with
  | none =>
    have hall := (lastIdx_none p l).1 hr
    have := hall _ (getD_mem_of_lt l m 0 hm)
    rw [this] at hp; exact absurd hp (by simp)
  | some j =>
    obtain ⟨h1, _, h3⟩ := lastIdx_some_spec p l j hr
    refine ⟨j, rfl, ?_, h1⟩
    by_contra hlt
    have := h3 m (by omega) hm
    rw [this] at hp; exact absurd hp (by simp)

/-- A byte map that preserves alphaChar leaves both scrub loops unchanged. -/
theorem firstIdx_map_alpha (f : Nat → Nat) (hf : ∀ b, alphaChar (f b) = alphaChar b) :
    ∀ l : Str, firstIdx alphaChar (l.map f) = firstIdx alphaChar l
  | [] => rfl
  | b :: rest => by
    simp only [List.map_cons, firstIdx, hf b, firstIdx_map_alpha f hf rest]

theorem lastIdx_map_alpha (f : Nat → Nat) (hf : ∀ b, alphaChar (f b) = alphaChar b) :
    ∀ l : Str, lastIdx alphaChar (l.map f) = lastIdx alphaChar l
  | [] => rfl
  | b :: rest => by
    simp only [List.map_cons, lastIdx, hf b, lastIdx_map_alpha f hf rest]

theorem alphaChar_asciiToLower (b : Nat) :
    alphaChar (asciiToLower b) = alphaChar b := by
  simp only [asciiToLower, alphaChar, inRange]
  by_cases h : 65 ≤ b ∧ b ≤ 90
  · simp only [if_pos h]
    rw [Bool.eq_iff_iff]
    simp only [Bool.or_eq_true, Bool.and_eq_true, decide_eq_true_eq]
    omega
  · simp only [if_neg h]

/-- Scrubbing commutes with any alphaChar-preserving byte map. -/
theorem scrubWord_map (f : Nat → Nat) (hf : ∀ b, alphaChar (f b) = alphaChar b)
    (s : Str) : scrubWord (s.map f) = (scrubWord s).map f := by
  simp only [scrubWord, firstAlphaL_eq, firstIdx_map_alpha f hf]
  cases hfi : firstIdx alphaChar s with
  | none => simp
  | some mn =>
    simp only [Option.map_some']
    rw [← List.map_drop, lastIdxLoop_eq, lastIdxLoop_eq, lastIdx_map_alpha f hf,
      List.map_take, List.map_drop]

theorem utf8DecodeOne_cons_lt (b : Nat) (rest : Str) (hb : b < 128) :
    utf8DecodeOne (b :: rest) = some (b, rest) := by
  simp [utf8DecodeOne, hb]

theorem utf8Decode_cons_lt (b : Nat) (rest : Str) (hb : b < 128) :
    utf8Decode (b :: rest) = (utf8Decode rest).map fun rs => b :: rs := by
  show utf8DecodeLoop (rest.length + 1) (b :: rest) = _
  rw [utf8DecodeLoop, utf8DecodeOne_cons_lt b rest hb]
  rfl

theorem utf8Decode_ascii : ∀ s : Str, (∀ b ∈ s, b < 128) → utf8Decode s = some s
  | [], _ => rfl
  | b :: rest, h => by
    have hb : b < 128 := h b (by simp)
    rw [utf8Decode_cons_lt b rest hb,
      utf8Decode_ascii rest (fun x hx => h x (by simp [hx])), Option.map_some']

theorem asciiToLower_lt (b : Nat) (h : b < 128) : asciiToLower b < 128 := by
  simp only [asciiToLower]
  by_cases hb : 65 ≤ b ∧ b ≤ 90
  · simp only [if_pos hb]; omega
  · simpa [if_neg hb] using h

theorem mapLowerRunes_ascii : ∀ rs : List Nat, (∀ r ∈ rs, r < 128) →
    mapLowerRunes rs = some (rs.map asciiToLower)
  | [], _ => rfl
  | r :: rest, h => by
    have hr : r < 128 := h r (by simp)
    simp only [mapLowerRunes, unicodeToLowerP, if_pos hr,
      mapLowerRunes_ascii rest (fun x hx => h x (by simp [hx]))]
    rfl

theorem utf8Encode_ascii : ∀ rs : List Nat, (∀ r ∈ rs, r < 128) → utf8Encode rs = rs
  | [], _ => rfl
  | r :: rest, h => by
    have hr : r < 128 := h r (by simp)
    have : utf8Encode (r :: rest) = utf8EncodeChar r ++ utf8Encode rest := by
      simp [utf8Encode]
    rw [this, utf8Encode_ascii rest (fun x hx => h x (by simp [hx]))]
    simp [utf8EncodeChar, if_pos hr]

/-- On an all-ASCII byte string, goToLower is exactly the bytewise ASCII
fold, matching the ASCII fast path of Go strings.ToLower. -/
theorem goToLower_ascii (s : Str) (h : ∀ b ∈ s, b < 128) :
    goToLower s = some (s.map asciiToLower) := by
  simp only [goToLower, utf8Decode_ascii s h, Option.some_bind,
    mapLowerRunes_ascii s h, Option.map_some']
  rw [utf8Encode_ascii]
  intro r hr
  obtain ⟨b, hb, rfl⟩ := List.mem_map.mp hr
  exact asciiToLower_lt b (h b hb)

/-- The scrubbed word is a sublist of the token. -/
theorem scrubWord_sublist (s : Str) : List.Sublist (scrubWord s) s := by
  simp only [scrubWord]
  cases firstAlphaL s 0 with
  | none => exact List.nil_sublist s
  | some mn =>
    exact ((s.drop mn).take_sublist _).trans (s.drop_sublist mn)

theorem sumVals_cons (k : Str) (v : Nat) (rest : List WordTuple) :
    sumVals ((k, v) :: rest) = v + sumVals rest := by
  simp [sumVals]

theorem bump_sumVals : ∀ (m : List WordTuple) (k : Str),
    sumVals (bump m k) = sumVals m + 1
  | [], k => by simp [bump, sumVals]
  | (k1, v) :: rest, k => by
    by_cases h : k1 = k
    · simp only [bump, if_pos h, sumVals_cons]; omega
    · simp only [bump, if_neg h, sumVals_cons, bump_sumVals rest k]; omega

theorem bump_getVal_self : ∀ (m : List WordTuple) (k : Str),
    getVal (bump m k) k = getVal m k + 1
  | [], k => by simp [bump, getVal]
  | (k1, v) :: rest, k => by
    by_cases h : k1 = k
    · simp [bump, getVal, if_pos h]
    · simp [bump, getVal, if_neg h, bump_getVal_self rest k]

theorem bump_getVal_ne : ∀ (m : List WordTuple) (k k' : Str), k' ≠ k →
    getVal (bump m k) k' = getVal m k'
  | [], k, k', h => by
    simp only [bump, getVal]
    rw [if_neg (fun hc => h hc.symm)]
  | (k1, v) :: rest, k, k', h => by
    by_cases h1 : k1 = k
    · simp only [bump, if_pos h1, getVal]
      rw [if_neg (fun hc : k1 = k' => h (h1 ▸ hc ▸ rfl)), if_neg (fun hc : k1 = k' => h (h1 ▸ hc ▸ rfl))]
    · simp only [bump, if_neg h1, getVal]
      by_cases h2 : k1 = k'
      · rw [if_pos h2, if_pos h2]
      · rw [if_neg h2, if_neg h2]
        exact bump_getVal_ne rest k k' h

theorem mem_keys_bump : ∀ (m : List WordTuple) (k x : Str),
    x ∈ (bump m k).map Prod.fst ↔ x ∈ m.map Prod.fst ∨ x = k
  | [], k, x => by simp [bump]
  | (k1, v) :: rest, k, x => by
    by_cases h : k1 = k
    · simp only [bump, if_pos h, List.map_cons, List.mem_cons]
      subst h
      tauto
    · simp only [bump, if_neg h, List.map_cons, List.mem_cons, mem_keys_bump rest k x]
      tauto

theorem bump_keys_nodup : ∀ (m : List WordTuple) (k : Str),
    (m.map Prod.fst).Nodup → ((bump m k).map Prod.fst).Nodup
  | [], k, _ => by simp [bump]
  | (k1, v) :: rest, k, h => by
    rw [List.map_cons, List.nodup_cons] at h
    by_cases h1 : k1 = k
    · simp only [bump, if_pos h1, List.map_cons, List.nodup_cons]
      exact h
    · simp only [bump, if_neg h1, List.map_cons, List.nodup_cons]
      refine ⟨?_, bump_keys_nodup rest k h.2⟩
      intro hc
      rcases (mem_keys_bump rest k k1).1 hc with hc' | hc'
      · exact h.1 hc'
      · exact h1 hc'

theorem bump_val_ge_one : ∀ (m : List WordTuple) (k : Str),
    (∀ p ∈ m, 1 ≤ p.2) → ∀ p ∈ bump m k, 1 ≤ p.2
  | [], k, _ => by simp [bump]
  | (k1, v) :: rest, k, h => by
    by_cases h1 : k1 = k
    · simp only [bump, if_pos h1]
      intro p hp
      rcases List.mem_cons.mp hp with hp' | hp'
      · rw [hp']; simp
      · exact h p (List.mem_cons_of_mem _ hp')
    · simp only [bump, if_neg h1]
      intro p hp
      rcases List.mem_cons.mp hp with hp' | hp'
      · rw [hp']; exact h (k1, v) (by simp)
      · exact bump_val_ge_one rest k (fun q hq => h q (List.mem_cons_of_mem _ hq)) p hp'

theorem eraseKey_sumVals : ∀ (m : List WordTuple) (k : Str),
    sumVals (eraseKey m k) + getVal m k = sumVals m
  | [], k => by simp [eraseKey, getVal, sumVals]
  | (k1, v) :: rest, k => by
    by_cases h : k1 = k
    · simp only [eraseKey, if_pos h, getVal, sumVals_cons]; omega
    · simp only [eraseKey, if_neg h, getVal, sumVals_cons]
      have := eraseKey_sumVals rest k
      omega

theorem eraseKey_subset : ∀ (m : List WordTuple) (k : Str),
    ∀ p ∈ eraseKey m k, p ∈ m
  | [], k => by simp [eraseKey]
  | (k1, v) :: rest, k => by
    by_cases h : k1 = k
    · simp only [eraseKey, if_pos h]
      intro p hp; exact List.mem_cons_of_mem _ hp
    · simp only [eraseKey, if_neg h]
      intro p hp
      rcases List.mem_cons.mp hp with rfl | hp'
      · simp
      · exact List.mem_cons_of_mem _ (eraseKey_subset rest k p hp')

theorem eraseKey_key_ne : ∀ (m : List WordTuple) (k : Str),
    (m.map Prod.fst).Nodup → ∀ p ∈ eraseKey m k, p.1 ≠ k
  | [], k, _ => by simp [eraseKey]
  | (k1, v) :: rest, k, h => by
    rw [List.map_cons, List.nodup_cons] at h
    by_cases h1 : k1 = k
    · simp only [eraseKey, if_pos h1]
      intro p hp hc
      have hm : p.1 ∈ rest.map Prod.fst := List.mem_map.mpr ⟨p, hp, rfl⟩
      rw [hc, ← h1] at hm
      exact h.1 hm
    · simp only [eraseKey, if_neg h1]
      intro p hp
      rcases List.mem_cons.mp hp with hp' | hp'
      · rw [hp']; exact h1
      · exact eraseKey_key_ne rest k h.2 p hp'

theorem wordCountLoop_total (lower : Str → Str) (cs : Bool) : ∀ (tokens : List Str)
    (m : List WordTuple) (total : Nat),
    (wordCountLoop lower cs tokens m total).2 = total + tokens.length
  | [], m, total => by simp [wordCountLoop]
  | t :: rest, m, total => by
    simp only [wordCountLoop, wordCountLoop_total lower cs rest, List.length_cons]
    omega

theorem wordCountLoop_sumVals (lower : Str → Str) (cs : Bool) : ∀ (tokens : List Str)
    (m : List WordTuple) (total : Nat),
    sumVals (wordCountLoop lower cs tokens m total).1 = sumVals m + tokens.length
  | [], m, total => by simp [wordCountLoop]
  | t :: rest, m, total => by
    simp only [wordCountLoop, wordCountLoop_sumVals lower cs rest, bump_sumVals,
      List.length_cons]
    omega

theorem wordCountLoop_getVal_nil (lower : Str → Str) (cs : Bool) : ∀ (tokens : List Str)
    (m : List WordTuple) (total : Nat),
    getVal (wordCountLoop lower cs tokens m total).1 [] =
      getVal m [] + countEmptyTokens lower cs tokens
  | [], m, total => by simp [wordCountLoop, countEmptyTokens]
  | t :: rest, m, total => by
    simp only [wordCountLoop, wordCountLoop_getVal_nil lower cs rest, countEmptyTokens,
      List.countP_cons]
    by_cases h : wordOf lower cs t = []
    · rw [← h, bump_getVal_self]
      simp only [h]
      simp
      omega
    · rw [bump_getVal_ne m (wordOf lower cs t) [] (fun hc => h hc.symm)]
      simp [h]

theorem wordCountLoop_nodup (lower : Str → Str) (cs : Bool) : ∀ (tokens : List Str)
    (m : List WordTuple) (total : Nat), (m.map Prod.fst).Nodup →
    ((wordCountLoop lower cs tokens m total).1.map Prod.fst).Nodup
  | [], m, total, h => h
  | t :: rest, m, total, h =>
    wordCountLoop_nodup lower cs rest _ _ (bump_keys_nodup m _ h)

theorem wordCountLoop_val_ge_one (lower : Str → Str) (cs : Bool) : ∀ (tokens : List Str)
    (m : List WordTuple) (total : Nat), (∀ p ∈ m, 1 ≤ p.2) →
    ∀ p ∈ (wordCountLoop lower cs tokens m total).1, 1 ≤ p.2
  | [], m, total, h => h
  | t :: rest, m, total, h =>
    wordCountLoop_val_ge_one lower cs rest _ _ (bump_val_ge_one m _ h)

theorem listIncr_length : ∀ (l : List Nat) (i : Nat), (listIncr l i).length = l.length
  | [], _ => rfl
  | _ :: _, 0 => rfl
  | x :: xs, i + 1 => by simp [listIncr, listIncr_length xs i]

theorem listIncr_sum : ∀ (l : List Nat) (i : Nat), i < l.length →
    (listIncr l i).sum = l.sum + 1
  | [], i, h => by simp at h
  | x :: xs, 0, _ => by simp [listIncr]; omega
  | x :: xs, i + 1, h => by
    have := listIncr_sum xs i (by simpa using h)
    simp [listIncr, this]; omega

theorem listIncr_getD : ∀ (l : List Nat) (i : Nat), i < l.length →
    ∀ k, (listIncr l i).getD k 0 = l.getD k 0 + (if k = i then 1 else 0)
  | [], i, h, _ => by simp at h
  | x :: xs, 0, _, k => by
    cases k with
    | zero => simp [listIncr]
    | succ k' => simp [listIncr]
  | x :: xs, i + 1, h, k => by
    cases k with
    | zero => simp [listIncr]
    | succ k' =>
      have := listIncr_getD xs i (by simpa using h) k'
      simp only [listIncr, List.getD_cons_succ, this]
      by_cases hk : k' = i
      · simp [hk]
      · rw [if_neg hk, if_neg (by omega : ¬ k' + 1 = i + 1)]

theorem getD_replicate_zero : ∀ (n k : Nat), (List.replicate n (0 : Nat)).getD k 0 = 0
  | 0, k => by simp
  | n + 1, 0 => rfl
  | n + 1, k + 1 => getD_replicate_zero n k

theorem getD_append_replicate_zero : ∀ (hist : List Nat) (n k : Nat),
    (hist ++ List.replicate n 0).getD k 0 = hist.getD k 0
  | [], n, k => by simp [getD_replicate_zero n k]
  | x :: xs, n, 0 => rfl
  | x :: xs, n, k + 1 => by
    simp only [List.cons_append, List.getD_cons_succ]
    exact getD_append_replicate_zero xs n k

theorem histIncr_sum (hist : List Nat) (l : Nat) (h2 : List Nat)
    (h : histIncr hist l = some h2) : h2.sum = hist.sum + 1 := by
  simp only [histIncr] at h
  split at h
  · split at h
    · rename_i hlt
      obtain rfl : listIncr (hist ++ List.replicate hist.length 0) l = h2 := by
        simpa using h
      rw [listIncr_sum _ l (by simpa using hlt)]
      simp
    · exact Option.noConfusion h
  · obtain rfl : listIncr hist l = h2 := by simpa using h
    rename_i hge
    rw [listIncr_sum hist l (by omega)]

theorem histIncr_bounds (hist : List Nat) (l : Nat) (h2 : List Nat)
    (h : histIncr hist l = some h2) : hist.length ≤ h2.length ∧ l < h2.length := by
  simp only [histIncr] at h
  split at h
  · split at h
    · rename_i hlt
      obtain rfl : listIncr (hist ++ List.replicate hist.length 0) l = h2 := by
        simpa using h
      rw [listIncr_length]
      simp only [List.length_append, List.length_replicate] at hlt ⊢
      omega
    · exact Option.noConfusion h
  · obtain rfl : listIncr hist l = h2 := by simpa using h
    rename_i hge
    rw [listIncr_length]
    omega

theorem histIncr_getD (hist : List Nat) (l : Nat) (h2 : List Nat)
    (h : histIncr hist l = some h2) :
    ∀ k, h2.getD k 0 = hist.getD k 0 + (if k = l then 1 else 0) := by
  intro k
  simp only [histIncr] at h
  split at h
  · split at h
    · rename_i hlt
      obtain rfl : listIncr (hist ++ List.replicate hist.length 0) l = h2 := by
        simpa using h
      rw [listIncr_getD _ l (by simpa using hlt) k, getD_append_replicate_zero]
    · exact Option.noConfusion h
  · obtain rfl : listIncr hist l = h2 := by simpa using h
    rename_i hge
    rw [listIncr_getD hist l (by omega) k]

theorem histIncr_isSome (hist : List Nat) (l : Nat) (hl : l < 2 * hist.length) :
    ∃ h2, histIncr hist l = some h2 := by
  simp only [histIncr]
  split
  · rw [if_pos (by simp; omega)]
    exact ⟨_, rfl⟩
  · exact ⟨_, rfl⟩

theorem processLoop_spec : ∀ (counts mu : List WordTuple) (hist : List Nat)
    (mu2 : List WordTuple) (h2 : List Nat),
    processLoop counts mu hist = some (mu2, h2) →
    mu2 = mu ++ counts ∧ h2.sum = hist.sum + counts.length ∧
      hist.length ≤ h2.length ∧
      (∀ k, h2.getD k 0 = hist.getD k 0 + countLen counts k) ∧
      (∀ p ∈ counts, p.1.length < h2.length)
  | [], mu, hist, mu2, h2 => by
    intro h
    obtain ⟨rfl, rfl⟩ : mu = mu2 ∧ hist = h2 := by
      simpa [processLoop] using h
    simp [countLen]
  | (k, v) :: rest, mu, hist, mu2, h2 => by
    intro h
    simp only [processLoop] at h
    cases hh : histIncr hist k.length with
    | none => rw [hh] at h; exact absurd h (by simp)
    | some hi =>
      rw [hh] at h
      obtain ⟨hmu, hsum, hlen, hgetD, hkeys⟩ :=
        processLoop_spec rest (mu ++ [(k, v)]) hi mu2 h2 h
      obtain ⟨hb1, hb2⟩ := histIncr_bounds hist k.length hi hh
      refine ⟨by simp [hmu], ?_, by omega, ?_, ?_⟩
      · rw [hsum, histIncr_sum hist k.length hi hh]
        simp; omega
      · intro k'
        rw [hgetD k', histIncr_getD hist k.length hi hh k']
        have hcons : countLen ((k, v) :: rest) k' =
            countLen rest k' + (if k.length = k' then 1 else 0) := by
          simp only [countLen, List.countP_cons]
          by_cases hk : k.length = k' <;> simp [hk]
        rw [hcons]
        by_cases hk : k.length = k'
        · rw [if_pos hk, if_pos hk.symm]; omega
        · rw [if_neg hk, if_neg (fun hc => hk hc.symm)]; omega
      · intro p hp
        rcases List.mem_cons.mp hp with hp' | hp'
        · rw [hp']; dsimp only; omega
        · exact hkeys p hp'

theorem processLoop_isSome : ∀ (counts mu : List WordTuple) (hist : List Nat),
    0 < hist.length → (∀ p ∈ counts, p.1.length < 2 * hist.length) →
    ∃ r, processLoop counts mu hist = some r
  | [], mu, hist, _, _ => ⟨(mu, hist), rfl⟩
  | (k, v) :: rest, mu, hist, hpos, hkeys => by
    obtain ⟨hi, hh⟩ := histIncr_isSome hist k.length (hkeys (k, v) (by simp))
    obtain ⟨hb1, _⟩ := histIncr_bounds hist k.length hi hh
    obtain ⟨r, hr⟩ := processLoop_isSome rest (mu ++ [(k, v)]) hi (by omega)
      (fun p hp => lt_of_lt_of_le (hkeys p (List.mem_cons_of_mem _ hp)) (by omega))
    exact ⟨r, by simp only [processLoop, hh, hr]⟩

theorem trimIdx_eq (hist : List Nat) :
    trimIdx hist =
      match lastIdx (fun v => decide (0 < v)) hist with
      | some j => j
      | none => 0 := by
  have := lastIdxLoop_eq (fun v => decide (0 < v)) hist 0 0
  simp only [trimIdx, this]
  cases lastIdx (fun v => decide (0 < v)) hist <;> simp

theorem trimHist_sum (hist : List Nat) : (trimHist hist).sum = hist.sum := by
  cases hl : lastIdx (fun v => decide (0 < v)) hist with
  | none =>
    have hall : ∀ v ∈ hist, v = 0 := by
      intro v hv
      have := (lastIdx_none _ hist).1 hl v hv
      simpa using this
    have h1 : hist.sum = 0 := List.sum_eq_zero hall
    have h2 : (trimHist hist).sum = 0 :=
      List.sum_eq_zero fun v hv => hall v (((hist.take_sublist _)).mem hv)
    rw [h1, h2]
  | some j =>
    have hj : trimIdx hist = j := by rw [trimIdx_eq, hl]
    obtain ⟨hjl, _, hmax⟩ := lastIdx_some_spec _ hist j hl
    have hdrop : (hist.drop (j + 1)).sum = 0 := by
      refine List.sum_eq_zero fun v hv => ?_
      obtain ⟨m, hm, hvm⟩ := List.mem_iff_getElem.mp hv
      have hidx : j + 1 + m < hist.length := by
        rw [List.length_drop] at hm; omega
      have := hmax (j + 1 + m) (by omega) hidx
      rw [List.getD_eq_getElem hist 0 hidx] at this
      have hget : (hist.drop (j + 1))[m] = hist[j + 1 + m] := by
        have := List.getElem?_drop hist (j + 1) m
        rw [List.getElem?_eq_getElem hm, List.getElem?_eq_getElem hidx] at this
        simpa using this
      rw [hget] at hvm
      rw [hvm] at this
      simpa using this
    have := List.sum_take_add_sum_drop hist (j + 1)
    simp only [trimHist, hj]
    omega

theorem trimHist_getD (hist : List Nat) (k : Nat) (hk : k ≤ trimIdx hist) :
    (trimHist hist).getD k 0 = hist.getD k 0 := by
  simp only [trimHist]
  rw [List.getD_eq_getElem?_getD, List.getD_eq_getElem?_getD,
    List.getElem?_take_of_lt (by omega : k < trimIdx hist + 1)]

theorem insertWT_length (a : WordTuple) : ∀ l : List WordTuple,
    (insertWT a l).length = l.length + 1
  | [] => rfl
  | b :: l => by
    by_cases h : b.2 < a.2
    · simp [insertWT, if_pos h]
    · simp [insertWT, if_neg h, insertWT_length a l]

theorem sortWT_length : ∀ l : List WordTuple, (sortWT l).length = l.length
  | [] => rfl
  | a :: l => by simp [sortWT, insertWT_length, sortWT_length l]

theorem mem_insertWT (a : WordTuple) : ∀ (l : List WordTuple) (x : WordTuple),
    x ∈ insertWT a l ↔ x = a ∨ x ∈ l
  | [], x => by simp [insertWT]
  | b :: l, x => by
    by_cases h : b.2 < a.2
    · simp only [insertWT, if_pos h, List.mem_cons]
    · simp only [insertWT, if_neg h, List.mem_cons, mem_insertWT a l x]
      tauto

theorem insertWT_pairwise (a : WordTuple) : ∀ l : List WordTuple,
    l.Pairwise (fun x y => y.2 ≤ x.2) →
    (insertWT a l).Pairwise (fun x y => y.2 ≤ x.2)
  | [], _ => by simp [insertWT]
  | b :: l, h => by
    rw [List.pairwise_cons] at h
    by_cases hb : b.2 < a.2
    · simp only [insertWT, if_pos hb]
      rw [List.pairwise_cons]
      refine ⟨?_, List.pairwise_cons.mpr h⟩
      intro y hy
      rcases List.mem_cons.mp hy with hy' | hy'
      · rw [hy']; omega
      · have := h.1 y hy'
        omega
    · simp only [insertWT, if_neg hb]
      rw [List.pairwise_cons]
      refine ⟨?_, insertWT_pairwise a l h.2⟩
      intro y hy
      rcases (mem_insertWT a l y).1 hy with hy' | hy'
      · rw [hy']; omega
      · exact h.1 y hy'

theorem sortWT_pairwise : ∀ l : List WordTuple,
    (sortWT l).Pairwise (fun x y => y.2 ≤ x.2)
  | [] => by simp [sortWT]
  | a :: l => insertWT_pairwise a _ (sortWT_pairwise l)

theorem truncateTopWords1_nil (n : Int) : truncateTopWords1 [] n = [] := by
  simp only [truncateTopWords1]
  split
  · simp
  · rfl

theorem newConcordanceCore_some (lower : Str → Str) (tokens : List Str) (cs : Bool)
    (c : Concordance) (h : newConcordanceCore lower tokens cs = some c) :
    ∃ mu hist,
      processLoop (wordCount lower cs tokens).1 [] (List.replicate 64 0) = some (mu, hist) ∧
      c = ⟨(wordCount lower cs tokens).1, (wordCount lower cs tokens).2,
        (wordCount lower cs tokens).1.length, sortWT mu, trimHist hist⟩ := by
  simp only [newConcordanceCore] at h
  cases hp : processLoop (wordCount lower cs tokens).1 [] (List.replicate 64 0) with
  | none => rw [hp] at h; exact Option.noConfusion h
  | some r =>
    obtain ⟨mu, hist⟩ := r
    rw [hp] at h
    refine ⟨mu, hist, rfl, ?_⟩
    have := Option.some.injEq
      (Concordance.mk (wordCount lower cs tokens).1 (wordCount lower cs tokens).2
        (wordCount lower cs tokens).1.length (sortWT mu) (trimHist hist)) c
    exact (this ▸ h).symm

theorem getD_drop (s : List Nat) (n m : Nat) :
    (s.drop n).getD m 0 = s.getD (n + m) 0 := by
  rw [List.getD_eq_getElem?_getD, List.getD_eq_getElem?_getD, List.getElem?_drop]

theorem newConcordance1_some (lower : Str → Str) (tokens : List Str) (cs : Bool)
    (n : Int) (c : Concordance) (h : newConcordance1 lower tokens cs n = some c) :
    ∃ c0, newConcordanceCore lower tokens cs = some c0 ∧
      c = { c0 with mostUsed := truncateTopWords1 c0.mostUsed n } := by
  simp only [newConcordance1] at h
  cases hc : newConcordanceCore lower tokens cs with
  | none => rw [hc] at h; exact Option.noConfusion h
  | some c0 =>
    rw [hc] at h
    exact ⟨c0, rfl, by simpa using h.symm⟩

/-- C1: TruncateTopWords with n at most 0, or n at least the current length
of MostUsed, is a no-op, never indexes out of bounds, and truncating twice
with the same n equals truncating once.  All of this holds for variant 1.
Variant 2 violates the claim: MostUsed = MostUsed[:n] runs unguarded, so on a
one-entry list n = 2 panics (slice bounds out of range, modelled none) and
n = 0 clears the list instead of leaving it alone. -/
theorem truncateTopWords_claims :
    (∀ (mu : List WordTuple) (n : Int), n ≤ 0 → truncateTopWords1 mu n = mu) ∧
    (∀ (mu : List WordTuple) (n : Int), (mu.length : Int) ≤ n →
      truncateTopWords1 mu n = mu) ∧
    (∀ (mu : List WordTuple) (n : Int),
      truncateTopWords1 (truncateTopWords1 mu n) n = truncateTopWords1 mu n) ∧
    truncateTopWords2 [([97], 1)] 2 = none ∧
    truncateTopWords2 [([97], 1)] 0 = some [] := by
  refine ⟨?_, ?_, ?_, by decide, by decide⟩
  · intro mu n hn
    simp only [truncateTopWords1]
    rw [if_neg (by omega : ¬ (0 < n ∧ n < (mu.length : Int)))]
  · intro mu n hn
    simp only [truncateTopWords1]
    rw [if_neg (by omega : ¬ (0 < n ∧ n < (mu.length : Int)))]
  · intro mu n
    by_cases h : 0 < n ∧ n < (mu.length : Int)
    · have hinner : truncateTopWords1 mu n = mu.take n.toNat := by
        rw [truncateTopWords1, if_pos h]
      rw [hinner, truncateTopWords1,
        if_neg (by simp only [List.length_take]; push_cast; omega :
          ¬ (0 < n ∧ n < (((mu.take n.toNat).length : Nat) : Int)))]
    · have hinner : truncateTopWords1 mu n = mu := by
        rw [truncateTopWords1, if_neg h]
      rw [hinner, hinner]

/-- Closed instance of the C1 theorem: the no-op cases at concrete inputs. -/
theorem truncateTopWords_claims_witness :
    truncateTopWords1 [([97], 1)] (-1) = [([97], 1)] ∧
    truncateTopWords1 [([97], 1)] 5 = [([97], 1)] :=
  ⟨truncateTopWords_claims.1 [([97], 1)] (-1) (by decide),
   truncateTopWords_claims.2.1 [([97], 1)] 5 (by decide)⟩

/-- C2: the claim says the histogram grows by repeated doubling until large
enough, so the increment never indexes out of bounds for any word length.
The code computes that doubled size but allocates 2*len(hist) regardless, so
a word of length 128 (or more) indexes slot 128 of a 128-slot array: the
first theorem shows the histogram update panics, the second that building a
concordance over a single 128-letter word panics (none). -/
theorem histGrowth_out_of_bounds :
    histIncr (List.replicate 64 0) 128 = none ∧
    newConcordance1 id [List.replicate 128 97] true 0 = none :=
  ⟨by decide, by decide⟩

/-- C3 counterexample: case folding does not commute with scrubbing on every
token.  Go strings.ToLower is Unicode-aware: the KELVIN SIGN (bytes
226 132 170) folds to the ASCII letter k, which scrubbing keeps, while
scrubbing the unfolded token first leaves nothing to fold. -/
theorem toLower_scrub_not_commute :
    (goToLower [226, 132, 170]).map scrubWord ≠
      goToLower (scrubWord [226, 132, 170]) := by decide

/-- C3 amended: on tokens made of ASCII bytes only, folding to lowercase and
then scrubbing equals scrubbing and then folding. -/
theorem toLower_scrub_commute_ascii (s : Str) (h : ∀ b ∈ s, b < 128) :
    (goToLower s).map scrubWord = goToLower (scrubWord s) := by
  rw [goToLower_ascii s h,
    goToLower_ascii (scrubWord s) (fun b hb => h b ((scrubWord_sublist s).mem hb))]
  simp only [Option.map_some']
  rw [← scrubWord_map asciiToLower alphaChar_asciiToLower s]

/-- Closed instance of the amended C3 theorem at the ASCII token Hello, . -/
theorem toLower_scrub_commute_ascii_witness :
    (goToLower [72, 101, 108, 108, 111, 44]).map scrubWord =
      goToLower (scrubWord [72, 101, 108, 108, 111, 44]) :=
  toLower_scrub_commute_ascii [72, 101, 108, 108, 111, 44] (by decide)

/-- C4: WordCount counts every token in Total, even those scrubbing to
empty; the empty word is never a key of the returned map and every stored
count is positive; the sum of the counts plus the number of tokens that
scrub to empty equals Total, so the sum is at most Total with equality
exactly when no token scrubs to empty. -/
theorem wordCount_invariants (lower : Str → Str) (cs : Bool) (tokens : List Str) :
    (wordCount lower cs tokens).2 = tokens.length ∧
    (∀ p ∈ (wordCount lower cs tokens).1, p.1 ≠ [] ∧ 1 ≤ p.2) ∧
    sumVals (wordCount lower cs tokens).1 + countEmptyTokens lower cs tokens =
      (wordCount lower cs tokens).2 ∧
    sumVals (wordCount lower cs tokens).1 ≤ (wordCount lower cs tokens).2 ∧
    (sumVals (wordCount lower cs tokens).1 = (wordCount lower cs tokens).2 ↔
      countEmptyTokens lower cs tokens = 0) := by
  have htot := wordCountLoop_total lower cs tokens [] 0
  have hsum := wordCountLoop_sumVals lower cs tokens [] 0
  have hnil := wordCountLoop_getVal_nil lower cs tokens [] 0
  have hnodup := wordCountLoop_nodup lower cs tokens [] 0 (by simp)
  have hval := wordCountLoop_val_ge_one lower cs tokens [] 0 (by simp)
  have herase := eraseKey_sumVals (wordCountLoop lower cs tokens [] 0).1 []
  have h0 : sumVals ([] : List WordTuple) = 0 := rfl
  have g0 : getVal ([] : List WordTuple) [] = 0 := rfl
  have hc1 : (wordCount lower cs tokens).1 =
      eraseKey (wordCountLoop lower cs tokens [] 0).1 [] := rfl
  have hc2 : (wordCount lower cs tokens).2 =
      (wordCountLoop lower cs tokens [] 0).2 := rfl
  rw [hc1, hc2]
  rw [h0] at hsum
  rw [g0] at hnil
  refine ⟨by omega, ?_, by omega, by omega, by omega⟩
  · intro p hp
    exact ⟨eraseKey_key_ne _ [] hnodup p hp,
      hval p (eraseKey_subset _ [] p hp)⟩

/-- Closed instance of the C4 theorem at the tokens a and a lone dot. -/
theorem wordCount_invariants_witness :
    (wordCount id false [[97], [46]]).2 = 2 ∧
    sumVals (wordCount id false [[97], [46]]).1 ≤ (wordCount id false [[97], [46]]).2 :=
  ⟨(wordCount_invariants id false [[97], [46]]).1.trans (by decide),
   (wordCount_invariants id false [[97], [46]]).2.2.2.1⟩

/-- C5: after the concordance is built, the entries of LengthHistogram sum
to Unique, the number of distinct words (keys of the frequency map): the
histogram counts distinct words, not occurrences. -/
theorem lengthHistogram_sum_eq_unique (lower : Str → Str) (tokens : List Str)
    (cs : Bool) (n : Int) (c : Concordance)
    (h : newConcordance1 lower tokens cs n = some c) :
    c.lengthHistogram.sum = c.unique := by
  obtain ⟨c0, hc0, hc⟩ := newConcordance1_some lower tokens cs n c h
  obtain ⟨mu, hist, hpl, hceq⟩ := newConcordanceCore_some lower tokens cs c0 hc0
  have hsum : hist.sum = (wordCount lower cs tokens).1.length := by
    have := (processLoop_spec _ _ _ _ _ hpl).2.1
    simpa using this
  rw [hc, hceq]
  simp [trimHist_sum, hsum]

/-- Closed instance of the C5 theorem at the one-token corpus a. -/
theorem lengthHistogram_sum_eq_unique_witness :
    (Concordance.mk [([97], 1)] 1 1 [([97], 1)] [0, 1]).lengthHistogram.sum =
      (Concordance.mk [([97], 1)] 1 1 [([97], 1)] [0, 1]).unique :=
  lengthHistogram_sum_eq_unique id [[97]] true 0 _ (by decide)

/-- C6: the MostUsed sequence of a built concordance is sorted
non-increasing by count: each adjacent pair has the earlier count at least
the later count. -/
theorem mostUsed_sorted_desc (lower : Str → Str) (tokens : List Str) (cs : Bool)
    (n : Int) (c : Concordance) (h : newConcordance1 lower tokens cs n = some c) :
    c.mostUsed.Chain' (fun a b => b.2 ≤ a.2) := by
  obtain ⟨c0, hc0, hc⟩ := newConcordance1_some lower tokens cs n c h
  obtain ⟨mu, hist, hpl, hceq⟩ := newConcordanceCore_some lower tokens cs c0 hc0
  have hp : (sortWT mu).Pairwise (fun a b : WordTuple => b.2 ≤ a.2) :=
    sortWT_pairwise mu
  have hmu : c.mostUsed = truncateTopWords1 (sortWT mu) n := by
    rw [hc, hceq]
  rw [hmu]
  have hpw : (truncateTopWords1 (sortWT mu) n).Pairwise
      (fun a b : WordTuple => b.2 ≤ a.2) := by
    rw [truncateTopWords1]
    split
    · exact hp.sublist (List.take_sublist _ _)
    · exact hp
  exact hpw.chain'

/-- Closed instance of the C6 theorem at the one-token corpus a. -/
theorem mostUsed_sorted_desc_witness :
    List.Chain' (fun a b : WordTuple => b.2 ≤ a.2)
      (Concordance.mk [([97], 1)] 1 1 [([97], 1)] [0, 1]).mostUsed :=
  mostUsed_sorted_desc id [[97]] true 0 _ (by decide)

/-- C7: ScrubWord is a total function with no error conditions: it returns
the empty string when the token has no ASCII alphabetic byte, and otherwise
the substring from the first to the last alphabetic byte inclusive, interior
bytes kept verbatim; together with the five concrete examples of the spec
(empty string, dots only, don t with bang, digits around abc, Hello with a
comma). -/
theorem scrubWord_characterization :
    (∀ s : Str, (∀ b ∈ s, alphaChar b = false) → scrubWord s = []) ∧
    (∀ (s : Str) (i j : Nat), i < s.length → j < s.length →
      alphaChar (s.getD i 0) = true → alphaChar (s.getD j 0) = true →
      (∀ k, k < s.length → alphaChar (s.getD k 0) = true → i ≤ k ∧ k ≤ j) →
      scrubWord s = (s.drop i).take (j + 1 - i)) ∧
    scrubWord [] = [] ∧
    scrubWord [46, 46, 46] = [] ∧
    scrubWord [100, 111, 110, 39, 116, 33] = [100, 111, 110, 39, 116] ∧
    scrubWord [49, 50, 51, 97, 98, 99, 52, 53, 54] = [97, 98, 99] ∧
    scrubWord [72, 101, 108, 108, 111, 44] = [72, 101, 108, 108, 111] := by
  refine ⟨?_, ?_, by decide, by decide, by decide, by decide, by decide⟩
  · intro s hall
    simp [scrubWord, firstAlphaL_eq, (firstIdx_none alphaChar s).2 hall]
  · intro s i j hi hj hai haj hminmax
    have hij : i ≤ j := (hminmax i hi hai).2
    have hfi : firstIdx alphaChar s = some i := by
      apply firstIdx_some_of alphaChar s i hi hai
      intro k hk
      cases hA : alphaChar (s.getD k 0)
      · rfl
      · have := (hminmax k (by omega) hA).1
        omega
    have hli : lastIdx alphaChar (s.drop i) = some (j - i) := by
      apply lastIdx_some_of
      · rw [List.length_drop]; omega
      · rw [getD_drop]
        have hji : i + (j - i) = j := by omega
        rw [hji]; exact haj
      · intro k hk hklen
        rw [getD_drop]
        rw [List.length_drop] at hklen
        cases hA : alphaChar (s.getD (i + k) 0)
        · rfl
        · have := (hminmax (i + k) (by omega) hA).2
          omega
    simp only [scrubWord, firstAlphaL_eq, hfi, Option.map_some', Nat.zero_add]
    rw [lastIdxLoop_eq, hli]
    show (s.drop i).take (i + (j - i) + 1 - i) = (s.drop i).take (j + 1 - i)
    have harith : i + (j - i) + 1 - i = j + 1 - i := by omega
    rw [harith]

/-- Closed instance of the C7 theorem: Hello with a trailing comma scrubs to
the bytes from its first to its last letter. -/
theorem scrubWord_characterization_witness :
    scrubWord [72, 101, 108, 108, 111, 44] =
      (([72, 101, 108, 108, 111, 44] : Str).drop 0).take (4 + 1 - 0) :=
  scrubWord_characterization.2.1 [72, 101, 108, 108, 111, 44] 0 4 (by decide)
    (by decide) (by decide) (by decide) (by decide)

/-- C8: a corpus whose scrubbed words all have length at most 70 and which
contains a word of scrubbed length exactly 70 builds without crashing, and
the trimmed LengthHistogram has at least 71 slots, with the slot at index 70
recording that word. -/
theorem histogram_growth_length70 (lower : Str → Str) (tokens : List Str)
    (cs : Bool) (n : Int)
    (h70 : ∃ p ∈ (wordCount lower cs tokens).1, p.1.length = 70)
    (hshort : ∀ p ∈ (wordCount lower cs tokens).1, p.1.length ≤ 70) :
    ∃ c, newConcordance1 lower tokens cs n = some c ∧
      71 ≤ c.lengthHistogram.length ∧ 1 ≤ c.lengthHistogram.getD 70 0 := by
  obtain ⟨r, hr⟩ := processLoop_isSome (wordCount lower cs tokens).1 []
    (List.replicate 64 0) (by simp)
    (fun p hp => by
      have := hshort p hp
      simp only [List.length_replicate]
      omega)
  obtain ⟨mu, hist⟩ := r
  have hspec := processLoop_spec _ _ _ _ _ hr
  have hget : hist.getD 70 0 = countLen (wordCount lower cs tokens).1 70 := by
    have := hspec.2.2.2.1 70
    simpa [getD_replicate_zero] using this
  have hpos : 1 ≤ countLen (wordCount lower cs tokens).1 70 := by
    obtain ⟨p, hp, hlen⟩ := h70
    have hcp : 0 < (wordCount lower cs tokens).1.countP
        (fun p => decide (p.1.length = 70)) :=
      List.countP_pos.mpr ⟨p, hp, by simp [hlen]⟩
    simpa [countLen] using hcp
  have h70lt : 70 < hist.length := by
    obtain ⟨p, hp, hlen⟩ := h70
    have := hspec.2.2.2.2 p hp
    omega
  have hd : decide (0 < hist.getD 70 0) = true := by
    simp only [decide_eq_true_eq]
    omega
  obtain ⟨j, hlj, hj70, hjlen⟩ := lastIdx_ge (fun v => decide (0 < v)) hist 70 h70lt hd
  have htr : trimIdx hist = j := by rw [trimIdx_eq, hlj]
  have hcore : newConcordanceCore lower tokens cs =
      some ⟨(wordCount lower cs tokens).1, (wordCount lower cs tokens).2,
        (wordCount lower cs tokens).1.length, sortWT mu, trimHist hist⟩ := by
    simp only [newConcordanceCore, hr]
  refine ⟨⟨(wordCount lower cs tokens).1, (wordCount lower cs tokens).2,
    (wordCount lower cs tokens).1.length, truncateTopWords1 (sortWT mu) n,
    trimHist hist⟩, ?_, ?_, ?_⟩
  · simp only [newConcordance1, hcore, Option.map_some']
  · show 71 ≤ (trimHist hist).length
    simp only [trimHist, List.length_take, htr]
    omega
  · show 1 ≤ (trimHist hist).getD 70 0
    rw [trimHist_getD hist 70 (by omega)]
    omega

/-- Closed instance of the C8 theorem: one word of 70 letters next to one
short word. -/
theorem histogram_growth_length70_witness :
    ∃ c, newConcordance1 id [List.replicate 70 97, [98]] true 0 = some c ∧
      71 ≤ c.lengthHistogram.length ∧ 1 ≤ c.lengthHistogram.getD 70 0 :=
  histogram_growth_length70 id [List.replicate 70 97, [98]] true 0
    (by decide) (by decide)

/-- C9: after trimming, the histogram has no trailing zero slots: its last
entry is nonzero, unless every slot is zero, in which case it is the single
slot list holding zero, and that single zero slot is exactly what an empty
corpus produces. -/
theorem trimHist_trailing :
    (∀ hist : List Nat, hist ≠ [] → (∀ v ∈ hist, v = 0) → trimHist hist = [0]) ∧
    (∀ hist : List Nat, hist ≠ [] → (¬ ∀ v ∈ hist, v = 0) →
      ∃ v, (trimHist hist).getLast? = some v ∧ 0 < v) ∧
    (∀ (lower : Str → Str) (cs : Bool) (n : Int),
      newConcordance1 lower [] cs n = some ⟨[], 0, 0, [], [0]⟩) := by
  refine ⟨?_, ?_, ?_⟩
  · intro hist hne hall
    have hl : lastIdx (fun v => decide (0 < v)) hist = none :=
      (lastIdx_none _ hist).2 fun b hb => by simp [hall b hb]
    have htr : trimIdx hist = 0 := by rw [trimIdx_eq, hl]
    cases hist with
    | nil => exact absurd rfl hne
    | cons x t =>
      have hx : x = 0 := hall x (by simp)
      rw [trimHist, htr]
      simp [hx]
  · intro hist hne hnall
    push_neg at hnall
    obtain ⟨v, hv, hv0⟩ := hnall
    obtain ⟨m, hm, hvm⟩ := List.mem_iff_getElem.mp hv
    have hd : decide (0 < hist.getD m 0) = true := by
      rw [List.getD_eq_getElem hist 0 hm, hvm]
      simp only [decide_eq_true_eq]
      omega
    obtain ⟨j, hlj, hmj, hjlen⟩ := lastIdx_ge (fun v => decide (0 < v)) hist m hm hd
    have htr : trimIdx hist = j := by rw [trimIdx_eq, hlj]
    obtain ⟨_, hjpos, _⟩ := lastIdx_some_spec _ hist j hlj
    refine ⟨hist.getD j 0, ?_, by simpa using hjpos⟩
    rw [trimHist, htr, List.getLast?_eq_getElem?]
    have hlen : (hist.take (j + 1)).length = j + 1 := by
      rw [List.length_take]; omega
    rw [hlen]
    simp only [Nat.add_sub_cancel]
    rw [List.getElem?_take_of_lt (by omega), List.getElem?_eq_getElem hjlen,
      List.getD_eq_getElem hist 0 hjlen]
  · intro lower cs n
    have hcore : newConcordanceCore lower [] cs = some ⟨[], 0, 0, [], [0]⟩ := rfl
    simp [newConcordance1, hcore, truncateTopWords1_nil]

/-- Closed instance of the C9 theorem at the histogram 0, 2, 0. -/
theorem trimHist_trailing_witness :
    ∃ v, (trimHist [0, 2, 0]).getLast? = some v ∧ 0 < v :=
  trimHist_trailing.2.1 [0, 2, 0] (by decide) (by decide)

/-- C10 counterexample: the two variants are not behaviourally equivalent.
On the one-token corpus a with topWords 0, variant 1 returns the whole
MostUsed list while variant 2 truncates it to the empty list. -/
theorem variants_differ :
    newConcordance1 id [[97]] true 0 ≠ newConcordance2 id [[97]] true 0 := by
  decide

/-- C10 amended: the two variants agree (same Counts, Total, Unique,
MostUsed, LengthHistogram, and neither fails where the other succeeds)
whenever 0 < topWords and topWords is at most the number of distinct words;
outside that range variant 2 empties the list (topWords 0) or panics, while
variant 1 is a no-op. -/
theorem variants_agree_in_range (lower : Str → Str) (tokens : List Str) (cs : Bool)
    (n : Int) (h1 : 0 < n)
    (h2 : n ≤ ((wordCount lower cs tokens).1.length : Int)) :
    newConcordance2 lower tokens cs n = newConcordance1 lower tokens cs n := by
  cases hc : newConcordanceCore lower tokens cs with
  | none => simp [newConcordance1, newConcordance2, hc]
  | some c0 =>
    obtain ⟨mu, hist, hpl, hc0⟩ := newConcordanceCore_some lower tokens cs c0 hc
    have hmu : mu = (wordCount lower cs tokens).1 := by
      have := (processLoop_spec _ _ _ _ _ hpl).1
      simpa using this
    have hlen : c0.mostUsed.length = (wordCount lower cs tokens).1.length := by
      rw [hc0]
      simp [sortWT_length, hmu]
    have hcast : (c0.mostUsed.length : Int) =
        ((wordCount lower cs tokens).1.length : Int) := by exact_mod_cast hlen
    have ht2 : truncateTopWords2 c0.mostUsed n = some (c0.mostUsed.take n.toNat) := by
      rw [truncateTopWords2, if_pos ⟨by omega, by omega⟩]
    have ht1 : truncateTopWords1 c0.mostUsed n = c0.mostUsed.take n.toNat := by
      by_cases hlt : n < (c0.mostUsed.length : Int)
      · rw [truncateTopWords1, if_pos ⟨h1, hlt⟩]
      · have heq : n.toNat = c0.mostUsed.length := by omega
        rw [truncateTopWords1, if_neg (by omega), heq, List.take_length]
    simp [newConcordance1, newConcordance2, hc, ht1, ht2]

/-- Closed instance of the amended C10 theorem: both variants give the same
concordance for the one-token corpus a with topWords 1. -/
theorem variants_agree_in_range_witness :
    newConcordance2 id [[97]] true 1 = newConcordance1 id [[97]] true 1 :=
  variants_agree_in_range id [[97]] true 1 (by decide) (by decide)

/-- End-to-end check from the spec: the corpus a bb bb ccc ccc ccc with case
folding and topWords 2 gives Total 6, Unique 3, MostUsed ccc then bb, and a
histogram trimmed to four slots. -/
theorem endToEnd_spec_example :
    newConcordance1 (fun t => t.map asciiToLower)
      [[97], [98, 98], [98, 98], [99, 99, 99], [99, 99, 99], [99, 99, 99]] false 2 =
    some ⟨[([97], 1), ([98, 98], 2), ([99, 99, 99], 3)], 6, 3,
      [([99, 99, 99], 3), ([98, 98], 2)], [0, 1, 1, 1]⟩ := by decide
